import Mathlib

/-!
Verification of the nested comment tree synchronizer of the Gamerfeeds front
end, embedded from frontend/src/store/commentStore.ts and
frontend/src/types/comment.ts. The forest of threaded comments is an ordered
list of root nodes, each carrying its subtree inline in the replies field.
The three synchronizer operations are the recursive replace/remove helper
updateCommentRecursive, the recursive transform helper updateCommentReplies,
and the insert logic of addGameComment; the store level updateComment and
deleteComment actions are embedded as state transformers over the comment
slice of the store.
-/

namespace Gamerfeeds

/-- The author record attached to a comment, mirroring the user shape of the
Comment interface in frontend/src/types/comment.ts. -/
structure User where
  id : Nat
  username : String
  firstname : String
  lastname : String
  email : String
  avatar : Option String
deriving DecidableEq

/-- A comment node, mirroring the Comment interface of
frontend/src/types/comment.ts: id, content, created_at, updated_at, user_id,
parent_id, user, replies, content_type, content_id. The replies field holds
the inline subtree of direct children, so a forest is a List Comment. -/
inductive Comment : Type where
| mk (id : Nat) (content : String) (created_at : String) (updated_at : String)
    (user_id : Nat) (parent_id : Option Nat) (user : User)
    (replies : List Comment) (content_type : String) (content_id : Nat) : Comment

/-- Field accessor for the id of a comment. -/
def Comment.id : Comment → Nat
  | .mk i _ _ _ _ _ _ _ _ _ => i

/-- Field accessor for the content of a comment. -/
def Comment.content : Comment → String
  | .mk _ co _ _ _ _ _ _ _ _ => co

/-- Field accessor for the parent_id of a comment. -/
def Comment.parent_id : Comment → Option Nat
  | .mk _ _ _ _ _ p _ _ _ _ => p

/-- Field accessor for the replies of a comment. -/
def Comment.replies : Comment → List Comment
  | .mk _ _ _ _ _ _ _ rs _ _ => rs

/-- The spread update of the replies field, as in the source expression that
copies a comment while giving it a new replies array. -/
def Comment.setReplies : Comment → List Comment → Comment
  | .mk i co ca ua ui p us _ ct ci, rs => .mk i co ca ua ui p us rs ct ci

/-- Translation of updateCommentRecursive, commentStore.ts lines 23 to 53.
The source folds over the list with reduce, appending per element: a node
whose id matches commentId is dropped when updatedComment is null and is
substituted by updatedComment itself otherwise; a non matching node with a
non empty replies list is rebuilt with its replies processed recursively;
any other node is kept as is. The fold over the remaining elements continues
in every branch, which the list recursion below reproduces exactly. -/
def updateCommentRecursive : List Comment → Nat → Option Comment → List Comment
  | [], _, _ => []
  | .mk i co ca ua ui p us rs ct ci :: rest, commentId, updatedComment =>
    if i = commentId then
      match updatedComment with
      | none => updateCommentRecursive rest commentId updatedComment
      | some updated => updated :: updateCommentRecursive rest commentId updatedComment
    else if rs.length > 0 then
      .mk i co ca ua ui p us (updateCommentRecursive rs commentId updatedComment) ct ci
        :: updateCommentRecursive rest commentId updatedComment
    else
      .mk i co ca ua ui p us rs ct ci :: updateCommentRecursive rest commentId updatedComment

/-- Translation of updateCommentReplies, commentStore.ts lines 56 to 78.
The source maps over the list: a node whose id matches commentId is replaced
by transform applied to it; a non matching node with a non empty replies
list is rebuilt with its replies processed recursively; any other node is
kept as is. -/
def updateCommentReplies : List Comment → Nat → (Comment → Comment) → List Comment
  | [], _, _ => []
  | .mk i co ca ua ui p us rs ct ci :: rest, commentId, transform =>
    (if i = commentId then transform (.mk i co ca ua ui p us rs ct ci)
     else if rs.length > 0 then
       .mk i co ca ua ui p us (updateCommentReplies rs commentId transform) ct ci
     else .mk i co ca ua ui p us rs ct ci)
      :: updateCommentReplies rest commentId transform

/-- Translation of the forest update performed by addGameComment,
commentStore.ts lines 237 to 255, after the server acknowledges the new
comment (addNewsComment and addDiscussionComment perform the identical
update). The branch condition in the source is the JS truthiness test on
comment.parent_id, which selects the top level branch when parent_id is
null and also when it is the number 0; otherwise the parent is located with
updateCommentReplies and the new comment is prepended to its replies. -/
def addGameCommentSync (comments : List Comment) (parent_id : Option Nat)
    (newComment : Comment) : List Comment :=
  match parent_id with
  | none => newComment :: comments
  | some pid =>
    if pid = 0 then newComment :: comments
    else
      updateCommentReplies comments pid
        (fun parent => parent.setReplies (newComment :: parent.replies))

/-- Translation of the forest update performed by updateComment,
commentStore.ts lines 386 to 395: the node returned by the server is
substituted for the node with the edited id. -/
def updateCommentSync (comments : List Comment) (commentId : Nat)
    (updatedComment : Comment) : List Comment :=
  updateCommentRecursive comments commentId (some updatedComment)

/-- Translation of the forest update performed by deleteComment,
commentStore.ts lines 427 to 434: the subtree rooted at the deleted id is
excised. -/
def deleteCommentSync (comments : List Comment) (commentId : Nat) : List Comment :=
  updateCommentRecursive comments commentId none

/-- The comment slice of the zustand store: comments, isLoading, error. -/
structure CommentState where
  comments : List Comment
  isLoading : Bool
  error : Option String

/-- Translation of the updateComment action, commentStore.ts lines 367 to
403. The action first sets isLoading true and error null; a missing auth
token throws before any network call, and the catch branch records the
thrown message and clears isLoading, leaving comments untouched. When a
token is present the fetch round trip is abstracted as an Except value:
a server failure takes the same catch branch with the server message, and
a success substitutes the returned node into the forest. -/
def updateCommentOp (st : CommentState) (token : Option String) (commentId : Nat)
    (serverResult : Except String Comment) : CommentState :=
  match token with
  | none =>
    { comments := st.comments, isLoading := false,
      error := some "You must be logged in to update a comment" }
  | some _ =>
    match serverResult with
    | .error e => { comments := st.comments, isLoading := false, error := some e }
    | .ok updatedComment =>
      { comments := updateCommentRecursive st.comments commentId (some updatedComment),
        isLoading := false, error := none }

/-- Translation of the deleteComment action, commentStore.ts lines 405 to
442, abstracted in the same way as updateCommentOp: a missing token takes
the catch branch with the login message before any network call, a server
failure takes it with the server message, and a success excises the subtree
rooted at the deleted id. -/
def deleteCommentOp (st : CommentState) (token : Option String) (commentId : Nat)
    (serverResult : Except String Unit) : CommentState :=
  match token with
  | none =>
    { comments := st.comments, isLoading := false,
      error := some "You must be logged in to delete a comment" }
  | some _ =>
    match serverResult with
    | .error e => { comments := st.comments, isLoading := false, error := some e }
    | .ok _ =>
      { comments := updateCommentRecursive st.comments commentId none,
        isLoading := false, error := none }

mutual
/-- The ids of a subtree in preorder: the node, then its replies in order. -/
def subtreeIds : Comment → List Nat
  | .mk i _ _ _ _ _ _ rs _ _ => i :: forestIds rs
/-- The ids of a forest in preorder. -/
def forestIds : List Comment → List Nat
  | [] => []
  | c :: rest => subtreeIds c ++ forestIds rest
end

/-- Depth first search of the forest for the node with the given id: each
node is checked before its replies, and a subtree is searched before the
following siblings, matching the traversal order of the synchronizer. -/
def findInForest : List Comment → Nat → Option Comment
  | [], _ => none
  | .mk i co ca ua ui p us rs ct ci :: rest, targetId =>
    if i = targetId then some (.mk i co ca ua ui p us rs ct ci)
    else
      match findInForest rs targetId with
      | some found => some found
      | none => findInForest rest targetId

/-- All ids of the forest are pairwise distinct. -/
def uniqueIds (comments : List Comment) : Prop := (forestIds comments).Nodup

mutual
/-- Every reply of the node carries the node id as its parent_id, recursively. -/
def subtreeLinksOk : Comment → Prop
  | .mk i _ _ _ _ _ _ rs _ _ => forestLinksOk (some i) rs
/-- Every node of the forest carries the given parent reference as its
parent_id, and its subtree links are consistent. -/
def forestLinksOk (parent : Option Nat) : List Comment → Prop
  | [] => True
  | c :: rest => c.parent_id = parent ∧ subtreeLinksOk c ∧ forestLinksOk parent rest
end

/-- A well formed forest: ids are globally unique, every root node has a null
parent_id, and every nested node carries the id of the node whose replies
list holds it. -/
def WellFormed (comments : List Comment) : Prop :=
  uniqueIds comments ∧ forestLinksOk none comments

/-- Modelled from the spec, section 8 property 3: the forest identical to the
input except that the node with id pid has the new node prepended to its
replies; every other field of every node is rebuilt unchanged, and the
recursion visits every node outside the matched subtree. The spec premises
unique ids, so the matched subtree is not searched for further matches. -/
def specInsertUnder (node : Comment) (pid : Nat) : List Comment → List Comment
  | [] => []
  | .mk i co ca ua ui p us rs ct ci :: rest =>
    (if i = pid then .mk i co ca ua ui p us (node :: rs) ct ci
     else .mk i co ca ua ui p us (specInsertUnder node pid rs) ct ci)
      :: specInsertUnder node pid rest

/-- A sample author used by the concrete test forests below. -/
def sampleUser : User :=
  { id := 7, username := "sam", firstname := "Sam", lastname := "Doe",
    email := "sam@example.com", avatar := none }

/-- Sample node with id 3, a reply to the node with id 2. -/
def leaf3 : Comment :=
  .mk 3 "third" "t3" "t3" 7 (some 2) sampleUser [] "game" 5

/-- Sample node with id 2, a reply to the node with id 1, holding leaf3. -/
def child2 : Comment :=
  .mk 2 "second" "t2" "t2" 7 (some 1) sampleUser [leaf3] "game" 5

/-- Sample root node with id 1 holding the subtree 2, 3. -/
def root1 : Comment :=
  .mk 1 "first" "t1" "t1" 7 none sampleUser [child2] "game" 5

/-- Sample root node with id 4, no replies. -/
def root4 : Comment :=
  .mk 4 "fourth" "t4" "t4" 7 none sampleUser [] "game" 5

/-- Sample well formed forest: roots 1 and 4, with 2 under 1 and 3 under 2. -/
def sampleForest : List Comment := [root1, root4]

/-- The node returned by the backend edit endpoint for comment 2: same id and
parent, new content, fresh updated_at, empty replies list. -/
def editedNode2 : Comment :=
  .mk 2 "edited" "t2" "t6" 7 (some 1) sampleUser [] "game" 5

/-- A fresh reply to the node with id 2, as returned by the backend create
endpoint: fresh id, empty replies. -/
def freshNode9 : Comment :=
  .mk 9 "ninth" "t9" "t9" 7 (some 2) sampleUser [] "game" 5

/-- A root node carrying the id 0, which the JS truthiness test on parent_id
cannot distinguish from a missing parent reference. -/
def rootZero : Comment :=
  .mk 0 "zero" "t0" "t0" 7 none sampleUser [] "game" 5

/-- A fresh reply whose parent_id references the node with id 0. -/
def replyToZero : Comment :=
  .mk 5 "fifth" "t5" "t5" 7 (some 0) sampleUser [] "game" 5

/-- A fresh root comment whose id duplicates the root with id 1. -/
def duplicateRoot1 : Comment :=
  .mk 1 "duplicate" "t7" "t7" 7 none sampleUser [] "game" 5

/-- Forest induction principle: to prove a property of every forest it is
enough to prove it for the empty forest and for a cons from the property of
the replies of the head and of the tail. -/
theorem forest_ind {motive : List Comment → Prop} (nil : motive [])
    (cons : ∀ i co ca ua ui p us rs ct ci rest, motive rs → motive rest →
      motive (.mk i co ca ua ui p us rs ct ci :: rest)) :
    ∀ comments, motive comments
  | [] => nil
  | .mk i co ca ua ui p us rs ct ci :: rest =>
    cons i co ca ua ui p us rs ct ci rest
      (forest_ind nil cons rs) (forest_ind nil cons rest)

/-- Step lemma: updateCommentRecursive on a cons whose head matches the
target id keeps nothing of the head (delete) or substitutes the update
(replace), then continues with the tail. -/
theorem updateCommentRecursive_cons_match (i : Nat) (co ca ua : String) (ui : Nat)
    (p : Option Nat) (us : User) (rs : List Comment) (ct : String) (ci : Nat)
    (rest : List Comment) (commentId : Nat) (u : Option Comment) (h : i = commentId) :
    updateCommentRecursive (.mk i co ca ua ui p us rs ct ci :: rest) commentId u =
      u.toList ++ updateCommentRecursive rest commentId u := by
  cases u <;> simp [updateCommentRecursive, h]

/-- Step lemma: updateCommentRecursive on a cons whose head does not match
the target id rebuilds the head, recursing into a non empty replies list,
and continues with the tail. -/
theorem updateCommentRecursive_cons_noMatch (i : Nat) (co ca ua : String) (ui : Nat)
    (p : Option Nat) (us : User) (rs : List Comment) (ct : String) (ci : Nat)
    (rest : List Comment) (commentId : Nat) (u : Option Comment) (h : ¬ i = commentId) :
    updateCommentRecursive (.mk i co ca ua ui p us rs ct ci :: rest) commentId u =
      (if rs.length > 0 then
        Comment.mk i co ca ua ui p us (updateCommentRecursive rs commentId u) ct ci
       else Comment.mk i co ca ua ui p us rs ct ci)
        :: updateCommentRecursive rest commentId u := by
  cases u <;> simp only [updateCommentRecursive, if_neg h] <;> split <;> rfl

/-- Membership in the preorder id list of a cons decomposes into the head id,
the ids of the replies of the head and the ids of the tail. -/
theorem mem_forestIds_cons (x i : Nat) (co ca ua : String) (ui : Nat)
    (p : Option Nat) (us : User) (rs : List Comment) (ct : String) (ci : Nat)
    (rest : List Comment) :
    x ∈ forestIds (.mk i co ca ua ui p us rs ct ci :: rest)
      ↔ x = i ∨ x ∈ forestIds rs ∨ x ∈ forestIds rest := by
  simp [forestIds, subtreeIds, or_assoc]

/-- A replace or remove whose target id occurs nowhere in the forest returns
the forest unchanged. -/
theorem updateCommentRecursive_not_found (commentId : Nat) (u : Option Comment) :
    ∀ comments, commentId ∉ forestIds comments →
      updateCommentRecursive comments commentId u = comments := by
  intro comments
  induction comments using forest_ind with
  | nil => intro _; cases u <;> simp [updateCommentRecursive]
  | cons i co ca ua ui p us rs ct ci rest ihr iht =>
    intro h
    rw [mem_forestIds_cons] at h
    push_neg at h
    obtain ⟨hne, hrs, hrest⟩ := h
    rw [updateCommentRecursive_cons_noMatch _ _ _ _ _ _ _ _ _ _ _ _ _ hne.symm]
    rw [ihr hrs, iht hrest]
    split <;> rfl

/-- A transform whose target id occurs nowhere in the forest returns the
forest unchanged. -/
theorem updateCommentReplies_not_found (commentId : Nat) (t : Comment → Comment) :
    ∀ comments, commentId ∉ forestIds comments →
      updateCommentReplies comments commentId t = comments := by
  intro comments
  induction comments using forest_ind with
  | nil => intro _; simp [updateCommentReplies]
  | cons i co ca ua ui p us rs ct ci rest ihr iht =>
    intro h
    rw [mem_forestIds_cons] at h
    push_neg at h
    obtain ⟨hne, hrs, hrest⟩ := h
    simp only [updateCommentReplies]
    rw [if_neg hne.symm, ihr hrs, iht hrest]
    split <;> rfl

/-- A successful search returns a node carrying the searched id. -/
theorem findInForest_id (targetId : Nat) :
    ∀ comments found, findInForest comments targetId = some found →
      found.id = targetId := by
  intro comments
  induction comments using forest_ind with
  | nil => intro found h; simp [findInForest] at h
  | cons i co ca ua ui p us rs ct ci rest ihr iht =>
    intro found h
    simp only [findInForest] at h
    by_cases he : i = targetId
    · rw [if_pos he] at h
      cases h
      simpa [Comment.id] using he
    · rw [if_neg he] at h
      cases hrs : findInForest rs targetId with
      | some f => rw [hrs] at h; cases h; exact ihr _ hrs
      | none => rw [hrs] at h; exact iht _ h

/-- The search fails exactly when the id occurs nowhere in the forest. -/
theorem findInForest_eq_none (targetId : Nat) :
    ∀ comments, findInForest comments targetId = none ↔ targetId ∉ forestIds comments := by
  intro comments
  induction comments using forest_ind with
  | nil => simp [findInForest, forestIds]
  | cons i co ca ua ui p us rs ct ci rest ihr iht =>
    simp only [findInForest, mem_forestIds_cons]
    by_cases he : i = targetId
    · subst he
      simp
    · rw [if_neg he]
      cases hrs : findInForest rs targetId with
      | some f =>
        have hmem : targetId ∈ forestIds rs := by
          by_contra hc
          rw [← ihr] at hc
          rw [hrs] at hc
          cases hc
        simp [hrs, hmem]
      | none =>
        have hnotin : targetId ∉ forestIds rs := ihr.mp hrs
        simp only [hrs]
        rw [iht]
        constructor
        · intro hr
          rintro (h1 | h2 | h3)
          · exact he h1.symm
          · exact hnotin h2
          · exact hr h3
        · intro hx
          exact fun h3 => hx (Or.inr (Or.inr h3))

/-- Every id of the subtree of a found node occurs in the searched forest. -/
theorem findInForest_subtree_subset (targetId : Nat) :
    ∀ comments found, findInForest comments targetId = some found →
      ∀ x, x ∈ subtreeIds found → x ∈ forestIds comments := by
  intro comments
  induction comments using forest_ind with
  | nil => intro found h; simp [findInForest] at h
  | cons i co ca ua ui p us rs ct ci rest ihr iht =>
    intro found h x hx
    simp only [findInForest] at h
    rw [mem_forestIds_cons]
    by_cases he : i = targetId
    · rw [if_pos he] at h
      cases h
      simp only [subtreeIds, List.mem_cons] at hx
      rcases hx with hx | hx
      · exact Or.inl hx
      · exact Or.inr (Or.inl hx)
    · rw [if_neg he] at h
      cases hrs : findInForest rs targetId with
      | some f =>
        rw [hrs] at h; cases h
        exact Or.inr (Or.inl (ihr _ hrs x hx))
      | none =>
        rw [hrs] at h
        exact Or.inr (Or.inr (iht _ h x hx))

/-- Unfolding of the preorder id list on a cons. -/
theorem forestIds_cons (i : Nat) (co ca ua : String) (ui : Nat) (p : Option Nat)
    (us : User) (rs : List Comment) (ct : String) (ci : Nat) (rest : List Comment) :
    forestIds (.mk i co ca ua ui p us rs ct ci :: rest)
      = i :: (forestIds rs ++ forestIds rest) := by
  simp [forestIds, subtreeIds]

/-- A successful search means the id occurs in the forest. -/
theorem findInForest_mem (targetId : Nat) (comments : List Comment) (found : Comment)
    (h : findInForest comments targetId = some found) :
    targetId ∈ forestIds comments := by
  by_contra hc
  rw [← findInForest_eq_none] at hc
  rw [h] at hc
  cases hc

/-- The preorder ids of a remove are a sublist of the original preorder ids:
removal never introduces, duplicates or reorders ids. -/
theorem forestIds_remove_sublist (commentId : Nat) :
    ∀ comments, List.Sublist
      (forestIds (updateCommentRecursive comments commentId none))
      (forestIds comments) := by
  intro comments
  induction comments using forest_ind with
  | nil => simp [updateCommentRecursive]
  | cons i co ca ua ui p us rs ct ci rest ihr iht =>
    by_cases he : i = commentId
    · rw [updateCommentRecursive_cons_match _ _ _ _ _ _ _ _ _ _ _ _ _ he]
      simp only [Option.toList_none, List.nil_append, forestIds_cons]
      exact iht.trans ((List.sublist_append_right _ _).cons _)
    · rw [updateCommentRecursive_cons_noMatch _ _ _ _ _ _ _ _ _ _ _ _ _ he]
      split
      · rw [forestIds_cons, forestIds_cons]
        exact (ihr.append iht).cons₂ i
      · rw [forestIds_cons, forestIds_cons]
        exact ((List.Sublist.refl _).append iht).cons₂ i

/-- Remove preserves the parent link discipline of the forest. -/
theorem forestLinksOk_remove (commentId : Nat) :
    ∀ comments, ∀ parent, forestLinksOk parent comments →
      forestLinksOk parent (updateCommentRecursive comments commentId none) := by
  intro comments
  induction comments using forest_ind with
  | nil => intro parent h; simpa [updateCommentRecursive] using h
  | cons i co ca ua ui p us rs ct ci rest ihr iht =>
    intro parent h
    obtain ⟨hp, hsub, hrest⟩ := h
    by_cases he : i = commentId
    · rw [updateCommentRecursive_cons_match _ _ _ _ _ _ _ _ _ _ _ _ _ he]
      simpa using iht parent hrest
    · rw [updateCommentRecursive_cons_noMatch _ _ _ _ _ _ _ _ _ _ _ _ _ he]
      rw [subtreeLinksOk] at hsub
      split
      · exact ⟨hp, ihr (some i) hsub, iht parent hrest⟩
      · exact ⟨hp, hsub, iht parent hrest⟩

/-- The transform helper preserves the length of the list it maps over. -/
theorem updateCommentReplies_length (commentId : Nat) (t : Comment → Comment) :
    ∀ comments, (updateCommentReplies comments commentId t).length = comments.length := by
  intro comments
  induction comments using forest_ind with
  | nil => simp [updateCommentReplies]
  | cons i co ca ua ui p us rs ct ci rest ihr iht =>
    simp only [updateCommentReplies, List.length_cons, iht]

/-- Core excision lemma: in a forest with unique ids, removing the node with
the found id leaves exactly the preorder ids outside the subtree of the found
node, in their original relative order. -/
theorem forestIds_remove_of_found (targetId : Nat) :
    ∀ comments found, (forestIds comments).Nodup →
      findInForest comments targetId = some found →
      forestIds (updateCommentRecursive comments targetId none)
        = (forestIds comments).filter (fun x => decide (x ∉ subtreeIds found)) := by
  intro comments
  induction comments using forest_ind with
  | nil => intro found _ h; simp [findInForest] at h
  | cons i co ca ua ui p us rs ct ci rest ihr iht =>
    intro found hnd hfind
    rw [forestIds_cons] at hnd
    obtain ⟨hi, hnd2⟩ := List.nodup_cons.mp hnd
    obtain ⟨hndr, hndt, hdisj⟩ := List.nodup_append.mp hnd2
    have hi_rs : i ∉ forestIds rs := fun hx => hi (List.mem_append_left _ hx)
    have hi_rest : i ∉ forestIds rest := fun hx => hi (List.mem_append_right _ hx)
    simp only [findInForest] at hfind
    by_cases he : i = targetId
    · rw [if_pos he] at hfind
      cases hfind
      rw [updateCommentRecursive_cons_match _ _ _ _ _ _ _ _ _ _ _ _ _ he]
      rw [Option.toList_none, List.nil_append]
      rw [updateCommentRecursive_not_found targetId none rest (he ▸ hi_rest)]
      rw [forestIds_cons, List.filter_cons]
      have hin : ¬ (i ∉ subtreeIds (Comment.mk i co ca ua ui p us rs ct ci)) := by
        simp [subtreeIds]
      rw [if_neg (by simpa using hin)]
      rw [List.filter_append]
      rw [List.filter_eq_nil_iff.mpr (by
        intro a ha
        simp only [decide_not, Bool.not_eq_true', decide_eq_false_iff_not, not_not]
        simp [subtreeIds, ha])]
      rw [List.filter_eq_self.mpr (by
        intro a ha
        have h1 : a ≠ i := fun e => hi_rest (e ▸ ha)
        have h2 : a ∉ forestIds rs := fun hx => hdisj hx ha
        simp [subtreeIds, h1, h2])]
      rw [List.nil_append]
    · rw [if_neg he] at hfind
      cases hrs : findInForest rs targetId with
      | some f =>
        rw [hrs] at hfind
        cases hfind
        have hmem : targetId ∈ forestIds rs := findInForest_mem _ _ _ hrs
        have hlen : rs.length > 0 := by
          cases rs with
          | nil => simp [forestIds] at hmem
          | cons a b => simp
        have hsub : ∀ x ∈ subtreeIds found, x ∈ forestIds rs :=
          findInForest_subtree_subset _ _ _ hrs
        rw [updateCommentRecursive_cons_noMatch _ _ _ _ _ _ _ _ _ _ _ _ _ he]
        rw [if_pos hlen]
        rw [updateCommentRecursive_not_found targetId none rest
          (fun hx => hdisj hmem hx)]
        rw [forestIds_cons, forestIds_cons]
        rw [ihr _ hndr hrs]
        rw [List.filter_cons]
        rw [if_pos (by
          simp only [decide_not, Bool.not_eq_true', decide_eq_false_iff_not, not_not,
            decide_eq_true_eq]
          intro hx
          exact hi_rs (hsub _ hx))]
        rw [List.filter_append]
        rw [(List.filter_eq_self (l := forestIds rest)).mpr (by
          intro a ha
          simp only [decide_not, Bool.not_eq_true', decide_eq_false_iff_not, not_not,
            decide_eq_true_eq]
          intro hx
          exact hdisj (hsub _ hx) ha)]
      | none =>
        rw [hrs] at hfind
        have hnrs : targetId ∉ forestIds rs := (findInForest_eq_none _ _).mp hrs
        have hsub : ∀ x ∈ subtreeIds found, x ∈ forestIds rest :=
          findInForest_subtree_subset _ _ _ hfind
        rw [updateCommentRecursive_cons_noMatch _ _ _ _ _ _ _ _ _ _ _ _ _ he]
        rw [updateCommentRecursive_not_found targetId none rs hnrs]
        have hcollapse :
            (if rs.length > 0 then Comment.mk i co ca ua ui p us rs ct ci
             else Comment.mk i co ca ua ui p us rs ct ci)
              = Comment.mk i co ca ua ui p us rs ct ci := by
          split <;> rfl
        rw [hcollapse]
        rw [forestIds_cons, forestIds_cons]
        rw [iht _ hndt hfind]
        rw [List.filter_cons]
        rw [if_pos (by
          simp only [decide_not, Bool.not_eq_true', decide_eq_false_iff_not, not_not,
            decide_eq_true_eq]
          intro hx
          exact hi_rest (hsub _ hx))]
        rw [List.filter_append]
        rw [(List.filter_eq_self (l := forestIds rs)).mpr (by
          intro a ha
          simp only [decide_not, Bool.not_eq_true', decide_eq_false_iff_not, not_not,
            decide_eq_true_eq]
          intro hx
          exact hdisj ha (hsub _ hx))]

/-- The preorder ids of a subtree are the id of the node followed by the ids
of its replies. -/
theorem subtreeIds_eq (c : Comment) :
    subtreeIds c = c.id :: forestIds c.replies := by
  cases c
  simp [subtreeIds, Comment.id, Comment.replies]

/-- Core substitution lemma: in a forest with unique ids, replacing the found
node by an update that carries the same id and an empty replies list leaves
exactly the preorder ids outside the former reply subtree of the found node,
in their original relative order. -/
theorem forestIds_replace_of_found (targetId : Nat) (upd : Comment)
    (hid : upd.id = targetId) (hrep : upd.replies = []) :
    ∀ comments found, (forestIds comments).Nodup →
      findInForest comments targetId = some found →
      forestIds (updateCommentRecursive comments targetId (some upd))
        = (forestIds comments).filter
            (fun x => decide (x ∉ forestIds found.replies)) := by
  have hupd : subtreeIds upd = [targetId] := by
    rw [subtreeIds_eq, hid, hrep]
    simp [forestIds]
  intro comments
  induction comments using forest_ind with
  | nil => intro found _ h; simp [findInForest] at h
  | cons i co ca ua ui p us rs ct ci rest ihr iht =>
    intro found hnd hfind
    rw [forestIds_cons] at hnd
    obtain ⟨hi, hnd2⟩ := List.nodup_cons.mp hnd
    obtain ⟨hndr, hndt, hdisj⟩ := List.nodup_append.mp hnd2
    have hi_rs : i ∉ forestIds rs := fun hx => hi (List.mem_append_left _ hx)
    have hi_rest : i ∉ forestIds rest := fun hx => hi (List.mem_append_right _ hx)
    simp only [findInForest] at hfind
    by_cases he : i = targetId
    · rw [if_pos he] at hfind
      cases hfind
      rw [updateCommentRecursive_cons_match _ _ _ _ _ _ _ _ _ _ _ _ _ he]
      rw [Option.toList_some, List.cons_append, List.nil_append]
      rw [updateCommentRecursive_not_found targetId (some upd) rest (he ▸ hi_rest)]
      rw [forestIds_cons, List.filter_cons]
      have hrepF : (Comment.mk i co ca ua ui p us rs ct ci).replies = rs := by
        simp [Comment.replies]
      rw [hrepF]
      rw [if_pos (by
        simp only [decide_not, Bool.not_eq_true', decide_eq_false_iff_not, not_not,
          decide_eq_true_eq]
        exact hi_rs)]
      rw [List.filter_append]
      rw [List.filter_eq_nil_iff.mpr (by
        intro a ha
        simp only [decide_not, Bool.not_eq_true', decide_eq_false_iff_not, not_not]
        simpa using ha)]
      rw [(List.filter_eq_self (l := forestIds rest)).mpr (by
        intro a ha
        simp only [decide_not, Bool.not_eq_true', decide_eq_false_iff_not, not_not,
          decide_eq_true_eq]
        intro hx
        exact hdisj hx ha)]
      rw [List.nil_append]
      have hids : forestIds (upd :: rest) = targetId :: forestIds rest := by
        simp [forestIds, hupd]
      rw [hids, he]
    · rw [if_neg he] at hfind
      cases hrs : findInForest rs targetId with
      | some f =>
        rw [hrs] at hfind
        cases hfind
        have hmem : targetId ∈ forestIds rs := findInForest_mem _ _ _ hrs
        have hlen : rs.length > 0 := by
          cases rs with
          | nil => simp [forestIds] at hmem
          | cons a b => simp
        have hsub : ∀ x ∈ forestIds found.replies, x ∈ forestIds rs := by
          intro x hx
          refine findInForest_subtree_subset _ _ _ hrs x ?_
          rw [subtreeIds_eq]
          exact List.mem_cons_of_mem _ hx
        rw [updateCommentRecursive_cons_noMatch _ _ _ _ _ _ _ _ _ _ _ _ _ he]
        rw [if_pos hlen]
        rw [updateCommentRecursive_not_found targetId (some upd) rest
          (fun hx => hdisj hmem hx)]
        rw [forestIds_cons, forestIds_cons]
        rw [ihr _ hndr hrs]
        rw [List.filter_cons]
        rw [if_pos (by
          simp only [decide_not, Bool.not_eq_true', decide_eq_false_iff_not, not_not,
            decide_eq_true_eq]
          intro hx
          exact hi_rs (hsub _ hx))]
        rw [List.filter_append]
        rw [(List.filter_eq_self (l := forestIds rest)).mpr (by
          intro a ha
          simp only [decide_not, Bool.not_eq_true', decide_eq_false_iff_not, not_not,
            decide_eq_true_eq]
          intro hx
          exact hdisj (hsub _ hx) ha)]
      | none =>
        rw [hrs] at hfind
        have hnrs : targetId ∉ forestIds rs := (findInForest_eq_none _ _).mp hrs
        have hsub : ∀ x ∈ forestIds found.replies, x ∈ forestIds rest := by
          intro x hx
          refine findInForest_subtree_subset _ _ _ hfind x ?_
          rw [subtreeIds_eq]
          exact List.mem_cons_of_mem _ hx
        rw [updateCommentRecursive_cons_noMatch _ _ _ _ _ _ _ _ _ _ _ _ _ he]
        rw [updateCommentRecursive_not_found targetId (some upd) rs hnrs]
        have hcollapse :
            (if rs.length > 0 then Comment.mk i co ca ua ui p us rs ct ci
             else Comment.mk i co ca ua ui p us rs ct ci)
              = Comment.mk i co ca ua ui p us rs ct ci := by
          split <;> rfl
        rw [hcollapse]
        rw [forestIds_cons, forestIds_cons]
        rw [iht _ hndt hfind]
        rw [List.filter_cons]
        rw [if_pos (by
          simp only [decide_not, Bool.not_eq_true', decide_eq_false_iff_not, not_not,
            decide_eq_true_eq]
          intro hx
          exact hi_rest (hsub _ hx))]
        rw [List.filter_append]
        rw [(List.filter_eq_self (l := forestIds rs)).mpr (by
          intro a ha
          simp only [decide_not, Bool.not_eq_true', decide_eq_false_iff_not, not_not,
            decide_eq_true_eq]
          intro hx
          exact hdisj ha (hsub _ hx))]

/-- Evaluation of the replies spread update on a node in constructor form. -/
theorem setReplies_mk (i : Nat) (co ca ua : String) (ui : Nat) (p : Option Nat)
    (us : User) (rs rs2 : List Comment) (ct : String) (ci : Nat) :
    Comment.setReplies (Comment.mk i co ca ua ui p us rs ct ci) rs2
      = Comment.mk i co ca ua ui p us rs2 ct ci := rfl

/-- Evaluation of the replies accessor on a node in constructor form. -/
theorem replies_mk (i : Nat) (co ca ua : String) (ui : Nat) (p : Option Nat)
    (us : User) (rs : List Comment) (ct : String) (ci : Nat) :
    Comment.replies (Comment.mk i co ca ua ui p us rs ct ci) = rs := rfl

/-- A node with an empty replies list trivially satisfies the subtree link
discipline. -/
theorem subtreeLinksOk_of_replies_nil (node : Comment) (h : node.replies = []) :
    subtreeLinksOk node := by
  cases node with
  | mk i co ca ua ui p us rs ct ci =>
    simp only [Comment.replies] at h
    subst h
    simp [subtreeLinksOk, forestLinksOk]

/-- Inserting a fresh reply under the node with id pid permutes the preorder
ids of the forest into the new id followed by the original ids. -/
theorem forestIds_insertUnder_perm (node : Comment) (pid : Nat)
    (hrep : node.replies = []) :
    ∀ comments, (forestIds comments).Nodup → pid ∈ forestIds comments →
      List.Perm
        (forestIds (updateCommentReplies comments pid
          (fun parent => Comment.setReplies parent (node :: parent.replies))))
        (node.id :: forestIds comments) := by
  intro comments
  induction comments using forest_ind with
  | nil => intro _ hmem; simp [forestIds] at hmem
  | cons i co ca ua ui p us rs ct ci rest ihr iht =>
    intro hnd hmem
    rw [forestIds_cons] at hnd
    obtain ⟨hi, hnd2⟩ := List.nodup_cons.mp hnd
    obtain ⟨hndr, hndt, hdisj⟩ := List.nodup_append.mp hnd2
    have hi_rs : i ∉ forestIds rs := fun hx => hi (List.mem_append_left _ hx)
    have hi_rest : i ∉ forestIds rest := fun hx => hi (List.mem_append_right _ hx)
    rw [forestIds_cons]
    by_cases he : i = pid
    · have hnt : pid ∉ forestIds rest := he ▸ hi_rest
      simp only [updateCommentReplies, if_pos he, setReplies_mk, replies_mk]
      rw [updateCommentReplies_not_found pid _ rest hnt]
      rw [forestIds_cons]
      have hids : forestIds (node :: rs) = node.id :: forestIds rs := by
        rw [forestIds, subtreeIds_eq, hrep]
        simp [forestIds]
      rw [hids]
      exact List.Perm.swap node.id i _
    · simp only [updateCommentReplies, if_neg he]
      rw [mem_forestIds_cons] at hmem
      rcases hmem with h1 | h2 | h3
      · exact absurd h1.symm he
      · have hlen : rs.length > 0 := by
          cases rs with
          | nil => simp [forestIds] at h2
          | cons a b => simp
        rw [if_pos hlen]
        have hnt : pid ∉ forestIds rest := fun hx => hdisj h2 hx
        rw [updateCommentReplies_not_found pid _ rest hnt]
        rw [forestIds_cons]
        refine List.Perm.trans
          (List.Perm.cons i (List.Perm.append_right _ (ihr hndr h2))) ?_
        simp only [List.cons_append]
        exact List.Perm.swap node.id i _
      · have hnr : pid ∉ forestIds rs := fun hx => hdisj hx h3
        rw [updateCommentReplies_not_found pid _ rs hnr]
        have hcollapse :
            (if rs.length > 0 then Comment.mk i co ca ua ui p us rs ct ci
             else Comment.mk i co ca ua ui p us rs ct ci)
              = Comment.mk i co ca ua ui p us rs ct ci := by
          split <;> rfl
        rw [hcollapse]
        rw [forestIds_cons]
        refine List.Perm.trans
          (List.Perm.cons i (List.Perm.append_left _ (iht hndt h3))) ?_
        refine List.Perm.trans (List.Perm.cons i List.perm_middle) ?_
        exact List.Perm.swap node.id i _

/-- Inserting a reply whose parent_id is the id of the node it is prepended
under preserves the parent link discipline of the forest. -/
theorem forestLinksOk_insertUnder (node : Comment) (pid : Nat)
    (hpar : node.parent_id = some pid) (hsub : subtreeLinksOk node) :
    ∀ comments parent, forestLinksOk parent comments →
      forestLinksOk parent (updateCommentReplies comments pid
        (fun parent => Comment.setReplies parent (node :: parent.replies))) := by
  intro comments
  induction comments using forest_ind with
  | nil => intro parent h; simpa [updateCommentReplies] using h
  | cons i co ca ua ui p us rs ct ci rest ihr iht =>
    intro parent h
    obtain ⟨hp, hs, hrest⟩ := h
    rw [subtreeLinksOk] at hs
    by_cases he : i = pid
    · simp only [updateCommentReplies, if_pos he, setReplies_mk, replies_mk]
      refine ⟨hp, ?_, iht parent hrest⟩
      rw [subtreeLinksOk]
      refine ⟨?_, hsub, hs⟩
      rw [hpar, he]
    · simp only [updateCommentReplies, if_neg he]
      split
      · exact ⟨hp, by rw [subtreeLinksOk]; exact ihr (some i) hs, iht parent hrest⟩
      · exact ⟨hp, by rw [subtreeLinksOk]; exact hs, iht parent hrest⟩

/-- Round trip core: removing a node whose id is fresh for the forest right
after prepending it under any parent id restores the forest exactly. -/
theorem remove_after_insertUnder (node : Comment) (pid : Nat) :
    ∀ comments, Comment.id node ∉ forestIds comments →
      updateCommentRecursive
        (updateCommentReplies comments pid
          (fun parent => Comment.setReplies parent (node :: parent.replies)))
        (Comment.id node) none = comments := by
  cases node with
  | mk n nco nca nua nui np nus nrs nct nci =>
    simp only [Comment.id]
    intro comments
    induction comments using forest_ind with
    | nil => intro _; simp [updateCommentReplies, updateCommentRecursive]
    | cons i co ca ua ui p us rs ct ci rest ihr iht =>
      intro hfresh
      rw [mem_forestIds_cons] at hfresh
      push_neg at hfresh
      obtain ⟨hne, hnrs, hnrest⟩ := hfresh
      simp only [updateCommentReplies]
      by_cases he : i = pid
      · rw [if_pos he]
        simp only [setReplies_mk, replies_mk]
        rw [updateCommentRecursive_cons_noMatch _ _ _ _ _ _ _ _ _ _ _ _ _ hne.symm]
        rw [if_pos (by simp)]
        rw [updateCommentRecursive_cons_match _ _ _ _ _ _ _ _ _ _ _ _ _ rfl]
        rw [Option.toList_none, List.nil_append]
        rw [updateCommentRecursive_not_found _ _ rs hnrs]
        rw [iht hnrest]
      · rw [if_neg he]
        by_cases hlen : rs.length > 0
        · rw [if_pos hlen]
          rw [updateCommentRecursive_cons_noMatch _ _ _ _ _ _ _ _ _ _ _ _ _ hne.symm]
          rw [if_pos (by rw [updateCommentReplies_length]; exact hlen)]
          rw [ihr hnrs, iht hnrest]
        · rw [if_neg hlen]
          rw [updateCommentRecursive_cons_noMatch _ _ _ _ _ _ _ _ _ _ _ _ _ hne.symm]
          rw [if_neg hlen]
          rw [iht hnrest]

/-- The insert helper of the source coincides with the spec side description
of insertion under a parent: every node outside the matched node is rebuilt
unchanged and the matched node gets the new comment prepended to its former
replies. -/
theorem updateCommentReplies_eq_specInsertUnder (node : Comment) (pid : Nat) :
    ∀ comments, updateCommentReplies comments pid
        (fun parent => Comment.setReplies parent (node :: parent.replies))
      = specInsertUnder node pid comments := by
  intro comments
  induction comments using forest_ind with
  | nil => simp [updateCommentReplies, specInsertUnder]
  | cons i co ca ua ui p us rs ct ci rest ihr iht =>
    simp only [updateCommentReplies, specInsertUnder]
    by_cases he : i = pid
    · rw [if_pos he, if_pos he]
      simp only [setReplies_mk, replies_mk]
      rw [iht]
    · rw [if_neg he, if_neg he, iht]
      by_cases hlen : rs.length > 0
      · rw [if_pos hlen, ihr]
      · rw [if_neg hlen]
        have hnil : rs = [] := List.length_eq_zero.mp (Nat.eq_zero_of_not_pos hlen)
        subst hnil
        have hspec : specInsertUnder node pid [] = [] := by simp [specInsertUnder]
        rw [hspec]

/-- Replace preserves the parent link discipline when the update carries the
id and the parent reference of the found node and an empty replies list. -/
theorem forestLinksOk_replace (targetId : Nat) (upd : Comment)
    (hsubupd : subtreeLinksOk upd) :
    ∀ comments found parent, (forestIds comments).Nodup →
      forestLinksOk parent comments →
      findInForest comments targetId = some found →
      Comment.parent_id upd = Comment.parent_id found →
      forestLinksOk parent (updateCommentRecursive comments targetId (some upd)) := by
  intro comments
  induction comments using forest_ind with
  | nil => intro found parent _ _ hfind; simp [findInForest] at hfind
  | cons i co ca ua ui p us rs ct ci rest ihr iht =>
    intro found parent hnd hlinks hfind hpar
    rw [forestIds_cons] at hnd
    obtain ⟨hi, hnd2⟩ := List.nodup_cons.mp hnd
    obtain ⟨hndr, hndt, hdisj⟩ := List.nodup_append.mp hnd2
    obtain ⟨hp, hs, hrest⟩ := hlinks
    rw [subtreeLinksOk] at hs
    simp only [findInForest] at hfind
    by_cases he : i = targetId
    · rw [if_pos he] at hfind
      cases hfind
      rw [updateCommentRecursive_cons_match _ _ _ _ _ _ _ _ _ _ _ _ _ he]
      rw [Option.toList_some, List.cons_append, List.nil_append]
      rw [updateCommentRecursive_not_found targetId (some upd) rest
        (he ▸ fun hx => hi (List.mem_append_right _ hx))]
      refine ⟨?_, hsubupd, hrest⟩
      rw [hpar]
      exact hp
    · rw [if_neg he] at hfind
      rw [updateCommentRecursive_cons_noMatch _ _ _ _ _ _ _ _ _ _ _ _ _ he]
      cases hrs : findInForest rs targetId with
      | some f =>
        rw [hrs] at hfind
        cases hfind
        have hmem : targetId ∈ forestIds rs := findInForest_mem _ _ _ hrs
        rw [updateCommentRecursive_not_found targetId (some upd) rest
          (fun hx => hdisj hmem hx)]
        split
        · exact ⟨hp, by
            rw [subtreeLinksOk]
            exact ihr _ (some i) hndr hs hrs hpar, hrest⟩
        · exact ⟨hp, by rw [subtreeLinksOk]; exact hs, hrest⟩
      | none =>
        rw [hrs] at hfind
        have hnrs : targetId ∉ forestIds rs := (findInForest_eq_none _ _).mp hrs
        rw [updateCommentRecursive_not_found targetId (some upd) rs hnrs]
        have hcollapse :
            (if rs.length > 0 then Comment.mk i co ca ua ui p us rs ct ci
             else Comment.mk i co ca ua ui p us rs ct ci)
              = Comment.mk i co ca ua ui p us rs ct ci := by
          split <;> rfl
        rw [hcollapse]
        exact ⟨hp, by rw [subtreeLinksOk]; exact hs,
          iht _ parent hndt hrest hfind hpar⟩

/-- Claim C5: for every forest and every id X occurring nowhere in it,
Replace with any argument, including the Remove variant, returns the forest
structurally unchanged; the operation is a total function, so no error can
be raised. -/
theorem C5_unknown_id_noop (comments : List Comment) (targetId : Nat)
    (u : Option Comment) (h : targetId ∉ forestIds comments) :
    updateCommentRecursive comments targetId u = comments :=
  updateCommentRecursive_not_found targetId u comments h

/-- Witness for C5 at the sample forest with the absent id 99. -/
theorem C5_unknown_id_noop_witness :
    99 ∉ forestIds sampleForest
    ∧ updateCommentRecursive sampleForest 99 none = sampleForest :=
  ⟨by simp [sampleForest, root1, root4, child2, leaf3, forestIds, subtreeIds],
   C5_unknown_id_noop sampleForest 99 none
     (by simp [sampleForest, root1, root4, child2, leaf3, forestIds, subtreeIds])⟩

/-- Claim C8: inserting a comment whose parent reference is null prepends it
to the root sequence, leaving the former root sequence intact behind it. -/
theorem C8_insert_root_prepends (comments : List Comment) (node : Comment) :
    addGameCommentSync comments none node = node :: comments := rfl

/-- Claim C9: the root insert path performs no duplicate id validation: it
prepends unconditionally, so inserting a node with null parent whose id is
already present yields a forest in which that id occurs at least twice. -/
theorem C9_no_duplicate_id_check (comments : List Comment) (node : Comment)
    (h : Comment.id node ∈ forestIds comments) :
    addGameCommentSync comments none node = node :: comments
    ∧ 2 ≤ (forestIds (node :: comments)).count (Comment.id node) := by
  refine ⟨rfl, ?_⟩
  simp only [forestIds]
  rw [List.count_append]
  have h1 : 0 < (subtreeIds node).count (Comment.id node) := by
    refine List.count_pos_iff.mpr ?_
    rw [subtreeIds_eq]
    exact List.mem_cons_self _ _
  have h2 : 0 < (forestIds comments).count (Comment.id node) :=
    List.count_pos_iff.mpr h
  omega

/-- Witness for C9: inserting duplicateRoot1, whose id 1 is already taken by
root1, at the root of the sample forest. -/
theorem C9_no_duplicate_id_check_witness :
    Comment.id duplicateRoot1 ∈ forestIds sampleForest
    ∧ (addGameCommentSync sampleForest none duplicateRoot1
        = duplicateRoot1 :: sampleForest
      ∧ 2 ≤ (forestIds (duplicateRoot1 :: sampleForest)).count
          (Comment.id duplicateRoot1)) :=
  ⟨by simp [duplicateRoot1, sampleForest, root1, root4, child2, leaf3,
      Comment.id, forestIds, subtreeIds],
   C9_no_duplicate_id_check sampleForest duplicateRoot1
     (by simp [duplicateRoot1, sampleForest, root1, root4, child2, leaf3,
       Comment.id, forestIds, subtreeIds])⟩

/-- Claim C10: when no auth token is available, both the updateComment and
the deleteComment actions leave the comment forest untouched, end with
isLoading false, and record a non null error message: the error path is
atomic with respect to the forest. -/
theorem C10_missing_token_atomic (st : CommentState) (token : Option String)
    (commentId : Nat) (ur : Except String Comment) (dr : Except String Unit)
    (h : token = none) :
    ((updateCommentOp st token commentId ur).comments = st.comments
      ∧ (updateCommentOp st token commentId ur).isLoading = false
      ∧ (updateCommentOp st token commentId ur).error ≠ none)
    ∧ ((deleteCommentOp st token commentId dr).comments = st.comments
      ∧ (deleteCommentOp st token commentId dr).isLoading = false
      ∧ (deleteCommentOp st token commentId dr).error ≠ none) := by
  subst h
  simp [updateCommentOp, deleteCommentOp]

/-- Witness for C10 at a concrete loading state over the sample forest. -/
theorem C10_missing_token_atomic_witness :
    (none : Option String) = none
    ∧ (((updateCommentOp ⟨sampleForest, true, none⟩ none 2 (.ok editedNode2)).comments
          = sampleForest
        ∧ (updateCommentOp ⟨sampleForest, true, none⟩ none 2 (.ok editedNode2)).isLoading
          = false
        ∧ (updateCommentOp ⟨sampleForest, true, none⟩ none 2 (.ok editedNode2)).error
          ≠ none)
      ∧ ((deleteCommentOp ⟨sampleForest, true, none⟩ none 2 (.ok ())).comments
          = sampleForest
        ∧ (deleteCommentOp ⟨sampleForest, true, none⟩ none 2 (.ok ())).isLoading
          = false
        ∧ (deleteCommentOp ⟨sampleForest, true, none⟩ none 2 (.ok ())).error
          ≠ none)) :=
  ⟨rfl, C10_missing_token_atomic ⟨sampleForest, true, none⟩ none 2
    (.ok editedNode2) (.ok ()) rfl⟩

/-- Claim C1, evaluation of the code at the failing input: replacing node 2,
whose subtree holds node 3, by the backend edit result editedNode2 (same id,
new content, empty replies) substitutes editedNode2 verbatim, so the node at
the former position of node 2 carries an empty replies list and the original
subtree with node 3 is gone; the claim instead requires the original replies
of node 2 to be preserved. -/
theorem C1_edit_discards_replies :
    updateCommentSync sampleForest 2 editedNode2
      = [Comment.mk 1 "first" "t1" "t1" 7 none sampleUser [editedNode2] "game" 5,
          root4]
    ∧ Comment.replies editedNode2 = []
    ∧ Comment.replies child2 = [leaf3] := by
  refine ⟨?_, ?_, ?_⟩
  · simp [updateCommentSync, sampleForest, root1, root4, child2, leaf3,
      editedNode2, updateCommentRecursive]
  · simp [editedNode2, Comment.replies]
  · simp [child2, Comment.replies]

/-- Claim C2: inserting a fresh reply under an existing parent and then
removing it by its id restores the original forest exactly. -/
theorem C2_insert_then_remove_roundtrip (comments : List Comment)
    (parentNode node : Comment) (pid : Nat)
    (hfind : findInForest comments pid = some parentNode)
    (hpar : Comment.parent_id node = some pid)
    (hfresh : Comment.id node ∉ forestIds comments)
    (hrep : Comment.replies node = []) :
    updateCommentRecursive
      (addGameCommentSync comments (Comment.parent_id node) node)
      (Comment.id node) none = comments := by
  rw [hpar]
  by_cases hz : pid = 0
  · subst hz
    have hform : addGameCommentSync comments (some 0) node = node :: comments := by
      simp [addGameCommentSync]
    rw [hform]
    cases node with
    | mk n nco nca nua nui np nus nrs nct nci =>
      simp only [Comment.id] at hfresh ⊢
      rw [updateCommentRecursive_cons_match n nco nca nua nui np nus nrs nct nci
        comments n none rfl]
      rw [Option.toList_none, List.nil_append]
      exact updateCommentRecursive_not_found n none comments hfresh
  · simp only [addGameCommentSync, if_neg hz]
    exact remove_after_insertUnder node pid comments hfresh

/-- Witness for C2: inserting freshNode9 under node 2 of the sample forest
and removing id 9 restores the sample forest. -/
theorem C2_insert_then_remove_roundtrip_witness :
    findInForest sampleForest 2 = some child2
    ∧ Comment.parent_id freshNode9 = some 2
    ∧ Comment.id freshNode9 ∉ forestIds sampleForest
    ∧ Comment.replies freshNode9 = []
    ∧ updateCommentRecursive
        (addGameCommentSync sampleForest (Comment.parent_id freshNode9) freshNode9)
        (Comment.id freshNode9) none = sampleForest :=
  ⟨by simp [findInForest, sampleForest, root1, root4, child2, leaf3],
   by simp [freshNode9, Comment.parent_id],
   by simp [freshNode9, Comment.id, sampleForest, root1, root4, child2, leaf3,
     forestIds, subtreeIds],
   by simp [freshNode9, Comment.replies],
   C2_insert_then_remove_roundtrip sampleForest child2 freshNode9 2
     (by simp [findInForest, sampleForest, root1, root4, child2, leaf3])
     (by simp [freshNode9, Comment.parent_id])
     (by simp [freshNode9, Comment.id, sampleForest, root1, root4, child2, leaf3,
       forestIds, subtreeIds])
     (by simp [freshNode9, Comment.replies])⟩

/-- Claim C3: in a forest with unique ids, removing a found node leaves
exactly the preorder ids outside its subtree, in their original relative
order, so neither the node nor any of its descendants occurs anywhere in the
result and the remaining nodes keep their relative order. -/
theorem C3_remove_excises_subtree (comments : List Comment) (found : Comment)
    (targetId : Nat) (hnd : uniqueIds comments)
    (hfind : findInForest comments targetId = some found) :
    forestIds (deleteCommentSync comments targetId)
      = (forestIds comments).filter (fun x => decide (x ∉ subtreeIds found))
    ∧ ∀ x ∈ subtreeIds found, x ∉ forestIds (deleteCommentSync comments targetId) := by
  have h1 := forestIds_remove_of_found targetId comments found hnd hfind
  have h2 : forestIds (deleteCommentSync comments targetId)
      = (forestIds comments).filter (fun x => decide (x ∉ subtreeIds found)) := by
    rw [deleteCommentSync]
    exact h1
  refine ⟨h2, ?_⟩
  intro x hx hmem
  rw [h2] at hmem
  have := (List.mem_filter.mp hmem).2
  simp only [decide_not, Bool.not_eq_true', decide_eq_false_iff_not] at this
  exact this hx

/-- Witness for C3: removing node 2 of the sample forest excises ids 2 and 3
and keeps ids 1 and 4 in order. -/
theorem C3_remove_excises_subtree_witness :
    uniqueIds sampleForest
    ∧ findInForest sampleForest 2 = some child2
    ∧ (forestIds (deleteCommentSync sampleForest 2)
        = (forestIds sampleForest).filter (fun x => decide (x ∉ subtreeIds child2))
      ∧ ∀ x ∈ subtreeIds child2, x ∉ forestIds (deleteCommentSync sampleForest 2)) :=
  ⟨by simp [uniqueIds, sampleForest, root1, root4, child2, leaf3,
      forestIds, subtreeIds],
   by simp [findInForest, sampleForest, root1, root4, child2, leaf3],
   C3_remove_excises_subtree sampleForest child2 2
     (by simp [uniqueIds, sampleForest, root1, root4, child2, leaf3,
       forestIds, subtreeIds])
     (by simp [findInForest, sampleForest, root1, root4, child2, leaf3])⟩

/-- Claim C4 counterexample: the forest [rootZero] has unique ids and
contains the node rootZero with id 0, and replyToZero references it as its
parent; yet the insert prepends replyToZero at the forest root, because the
JS truthiness test on parent_id treats the number 0 like null, instead of
yielding the forest whose only change is the replies list of rootZero. -/
theorem C4_counterexample :
    uniqueIds [rootZero]
    ∧ findInForest [rootZero] (Comment.id rootZero) = some rootZero
    ∧ Comment.parent_id replyToZero = some (Comment.id rootZero)
    ∧ addGameCommentSync [rootZero] (Comment.parent_id replyToZero) replyToZero
        = [replyToZero, rootZero]
    ∧ addGameCommentSync [rootZero] (Comment.parent_id replyToZero) replyToZero
        ≠ [Comment.setReplies rootZero [replyToZero]] := by
  refine ⟨?_, ?_, ?_, ?_, ?_⟩ <;>
    simp [uniqueIds, forestIds, subtreeIds, findInForest, addGameCommentSync,
      rootZero, replyToZero, Comment.id, Comment.parent_id, Comment.setReplies]

/-- Claim C4 amended: for a parent whose id is nonzero, inserting a node
referencing it yields exactly the spec side point update: every node outside
the parent is rebuilt unchanged and the replies of the parent become the new
node followed by its former replies. -/
theorem C4_insert_under_parent (comments : List Comment) (parentNode node : Comment)
    (hnd : uniqueIds comments)
    (hfind : findInForest comments (Comment.id parentNode) = some parentNode)
    (hz : Comment.id parentNode ≠ 0)
    (hpar : Comment.parent_id node = some (Comment.id parentNode)) :
    addGameCommentSync comments (Comment.parent_id node) node
      = specInsertUnder node (Comment.id parentNode) comments := by
  rw [hpar]
  simp only [addGameCommentSync, if_neg hz]
  exact updateCommentReplies_eq_specInsertUnder node (Comment.id parentNode) comments

/-- Witness for the amended C4: inserting freshNode9 under node 2 of the
sample forest. -/
theorem C4_insert_under_parent_witness :
    uniqueIds sampleForest
    ∧ findInForest sampleForest (Comment.id child2) = some child2
    ∧ Comment.id child2 ≠ 0
    ∧ Comment.parent_id freshNode9 = some (Comment.id child2)
    ∧ addGameCommentSync sampleForest (Comment.parent_id freshNode9) freshNode9
        = specInsertUnder freshNode9 (Comment.id child2) sampleForest :=
  ⟨by simp [uniqueIds, sampleForest, root1, root4, child2, leaf3,
      forestIds, subtreeIds],
   by simp [findInForest, sampleForest, root1, root4, child2, leaf3, Comment.id],
   by simp [child2, Comment.id],
   by simp [freshNode9, child2, Comment.parent_id, Comment.id],
   C4_insert_under_parent sampleForest child2 freshNode9
     (by simp [uniqueIds, sampleForest, root1, root4, child2, leaf3,
       forestIds, subtreeIds])
     (by simp [findInForest, sampleForest, root1, root4, child2, leaf3, Comment.id])
     (by simp [child2, Comment.id])
     (by simp [freshNode9, child2, Comment.parent_id, Comment.id])⟩

/-- Claim C6 counterexample: the parent reference some 0 is non null and
matches no node of the forest [root1], yet the insert is not dropped: the JS
truthiness test on parent_id sends the new node to the forest root. -/
theorem C6_counterexample :
    (some 0 : Option Nat) ≠ none
    ∧ 0 ∉ forestIds [root1]
    ∧ addGameCommentSync [root1] (some 0) replyToZero ≠ [root1] := by
  refine ⟨?_, ?_, ?_⟩ <;>
    simp [forestIds, subtreeIds, root1, child2, leaf3, addGameCommentSync,
      replyToZero]

/-- Claim C6 amended: for a nonzero parent id that matches no node anywhere
in the forest, the insert returns the forest unchanged: the orphaned node is
silently dropped and no error is raised (the operation is a total function). -/
theorem C6_orphan_insert_noop (comments : List Comment) (pid : Nat) (node : Comment)
    (hz : pid ≠ 0) (h : pid ∉ forestIds comments) :
    addGameCommentSync comments (some pid) node = comments := by
  simp only [addGameCommentSync, if_neg hz]
  exact updateCommentReplies_not_found pid _ comments h

/-- Witness for the amended C6 at the absent nonzero parent id 99. -/
theorem C6_orphan_insert_noop_witness :
    (99 : Nat) ≠ 0
    ∧ 99 ∉ forestIds sampleForest
    ∧ addGameCommentSync sampleForest (some 99) freshNode9 = sampleForest :=
  ⟨by decide,
   by simp [sampleForest, root1, root4, child2, leaf3, forestIds, subtreeIds],
   C6_orphan_insert_noop sampleForest 99 freshNode9 (by decide)
     (by simp [sampleForest, root1, root4, child2, leaf3, forestIds, subtreeIds])⟩

/-- Claim C7 counterexample: the forest [rootZero] is well formed and
contains the parent rootZero with id 0; inserting the fresh reply
replyToZero, whose parent_id references that existing parent, produces a
forest that is not well formed: the new node sits at the forest root while
carrying the non null parent reference some 0, because the JS truthiness
test on parent_id treats 0 like null. -/
theorem C7_counterexample :
    WellFormed [rootZero]
    ∧ findInForest [rootZero] (Comment.id rootZero) = some rootZero
    ∧ Comment.parent_id replyToZero = some (Comment.id rootZero)
    ∧ Comment.id replyToZero ∉ forestIds [rootZero]
    ∧ Comment.replies replyToZero = []
    ∧ ¬ WellFormed
        (addGameCommentSync [rootZero] (Comment.parent_id replyToZero) replyToZero) := by
  refine ⟨?_, ?_, ?_, ?_, ?_, ?_⟩ <;>
    simp [WellFormed, uniqueIds, forestIds, subtreeIds, forestLinksOk,
      subtreeLinksOk, findInForest, addGameCommentSync, rootZero, replyToZero,
      Comment.id, Comment.parent_id, Comment.replies]

/-- Claim C7 amended: starting from a well formed forest (unique ids, null
parent references exactly at the roots, every nested node referencing the
node holding it), well formedness is preserved by: any remove; a root insert
of a fresh node with null parent and empty replies; an insert of a fresh
node with empty replies under an existing parent whose id is nonzero; and a
replace of a found node by an update carrying the same id, the same parent
reference and an empty replies list. -/
theorem C7_wellFormed_preserved (comments : List Comment) (hwf : WellFormed comments) :
    (∀ targetId, WellFormed (deleteCommentSync comments targetId))
    ∧ (∀ node, Comment.parent_id node = none →
        Comment.id node ∉ forestIds comments → Comment.replies node = [] →
        WellFormed (addGameCommentSync comments (Comment.parent_id node) node))
    ∧ (∀ parentNode node,
        findInForest comments (Comment.id parentNode) = some parentNode →
        Comment.id parentNode ≠ 0 →
        Comment.parent_id node = some (Comment.id parentNode) →
        Comment.id node ∉ forestIds comments → Comment.replies node = [] →
        WellFormed (addGameCommentSync comments (Comment.parent_id node) node))
    ∧ (∀ found upd, findInForest comments (Comment.id found) = some found →
        Comment.id upd = Comment.id found →
        Comment.parent_id upd = Comment.parent_id found →
        Comment.replies upd = [] →
        WellFormed (updateCommentSync comments (Comment.id found) upd)) := by
  obtain ⟨hnd, hlinks⟩ := hwf
  refine ⟨?_, ?_, ?_, ?_⟩
  · intro targetId
    refine ⟨?_, ?_⟩
    · exact List.Nodup.sublist (forestIds_remove_sublist targetId comments) hnd
    · exact forestLinksOk_remove targetId comments none hlinks
  · intro node hpnone hfresh hrep
    rw [hpnone]
    have hform : addGameCommentSync comments none node = node :: comments := rfl
    rw [hform]
    refine ⟨?_, ?_⟩
    · have hids : forestIds (node :: comments)
          = Comment.id node :: forestIds comments := by
        simp only [forestIds]
        rw [subtreeIds_eq, hrep]
        simp [forestIds]
      rw [uniqueIds, hids]
      exact List.nodup_cons.mpr ⟨hfresh, hnd⟩
    · have hform2 : forestLinksOk none (node :: comments)
          ↔ Comment.parent_id node = none ∧ subtreeLinksOk node
            ∧ forestLinksOk none comments := by
        simp [forestLinksOk]
      rw [hform2]
      exact ⟨hpnone, subtreeLinksOk_of_replies_nil node hrep, hlinks⟩
  · intro parentNode node hfind hz hpar hfresh hrep
    rw [hpar]
    simp only [addGameCommentSync, if_neg hz]
    refine ⟨?_, ?_⟩
    · have hperm := forestIds_insertUnder_perm node (Comment.id parentNode) hrep
        comments hnd (findInForest_mem _ _ _ hfind)
      rw [uniqueIds]
      exact hperm.nodup_iff.mpr (List.nodup_cons.mpr ⟨hfresh, hnd⟩)
    · exact forestLinksOk_insertUnder node (Comment.id parentNode) hpar
        (subtreeLinksOk_of_replies_nil node hrep) comments none hlinks
  · intro found upd hfind hid hpar hrep
    refine ⟨?_, ?_⟩
    · rw [uniqueIds, updateCommentSync]
      rw [forestIds_replace_of_found (Comment.id found) upd hid hrep
        comments found hnd hfind]
      exact List.Nodup.filter _ hnd
    · rw [updateCommentSync]
      exact forestLinksOk_replace (Comment.id found) upd
        (subtreeLinksOk_of_replies_nil upd hrep) comments found none hnd hlinks
        hfind hpar

/-- Witness for the amended C7: the sample forest is well formed and stays
well formed after removing node 2. -/
theorem C7_wellFormed_preserved_witness :
    WellFormed sampleForest ∧ WellFormed (deleteCommentSync sampleForest 2) :=
  ⟨by simp [WellFormed, uniqueIds, forestIds, subtreeIds, forestLinksOk,
      subtreeLinksOk, sampleForest, root1, root4, child2, leaf3,
      Comment.parent_id],
   (C7_wellFormed_preserved sampleForest
     (by simp [WellFormed, uniqueIds, forestIds, subtreeIds, forestLinksOk,
       subtreeLinksOk, sampleForest, root1, root4, child2, leaf3,
       Comment.parent_id])).1 2⟩

end Gamerfeeds
